import Mathlib

/-!
Verification of the Mandrake-Bioworks ETL pipeline against its specification.

The definitions below are shallow embeddings of the Python sources:
  * `src/src/utils/helpers.py`  — `FileValidator`, `ProdigalRunner`
  * `src/src/utils/database.py` — `Database.insert_entry`
  * `src/run_etl.py`            — `ETLPipeline._process_source`,
                                  `ETLPipeline._filter_metagenome`,
                                  `ETLPipeline._load_and_cleanup`,
                                  `ETLPipeline._etl_single_file`
External effects (S3, the prodigal and seqkit binaries, the filesystem and
the SHA-256 primitive) are modelled as explicit oracle inputs; everything
the Python code itself computes is transcribed directly.
-/

namespace ETL

/-! ### Lexicographic order on strings (Python `list.sort()` on `str`)

Python compares strings lexicographically by code point; `list.sort()`
produces the unique ascending rearrangement.  We model the comparison
directly on the character data and realise the sort with insertion sort,
which agrees with any comparison sort on a total antisymmetric order. -/

def lexLe : List Char → List Char → Bool
  | [], _ => true
  | _ :: _, [] => false
  | a :: as, b :: bs =>
    if a.toNat < b.toNat then true
    else if b.toNat < a.toNat then false
    else lexLe as bs

def strLe (s t : String) : Bool :=
  lexLe s.data t.data

def strLeRel (s t : String) : Prop :=
  strLe s t = true

instance : DecidableRel strLeRel := fun s t => by
  unfold strLeRel; infer_instance

theorem lexLe_cons (x y : Char) (xs ys : List Char) :
    lexLe (x :: xs) (y :: ys) =
      (if x.toNat < y.toNat then true
       else if y.toNat < x.toNat then false
       else lexLe xs ys) := rfl

theorem le_of_lexLe_cons {x y : Char} {xs ys : List Char}
    (hab : lexLe (x :: xs) (y :: ys) = true) : x.toNat ≤ y.toNat := by
  by_contra h
  rw [lexLe_cons, if_neg (by omega), if_pos (by omega)] at hab
  exact Bool.false_ne_true hab

theorem lexLe_cons_of_eq {x y : Char} (h : x.toNat = y.toNat) (xs ys : List Char) :
    lexLe (x :: xs) (y :: ys) = lexLe xs ys := by
  rw [lexLe_cons, if_neg (by omega), if_neg (by omega)]

theorem lexLe_total (a b : List Char) : lexLe a b = true ∨ lexLe b a = true := by
  induction a generalizing b with
  | nil => left; rfl
  | cons x xs ih =>
    cases b with
    | nil => right; rfl
    | cons y ys =>
      by_cases hxy : x.toNat < y.toNat
      · left; rw [lexLe_cons, if_pos hxy]
      · by_cases hyx : y.toNat < x.toNat
        · right; rw [lexLe_cons, if_pos hyx]
        · have he : x.toNat = y.toNat := by omega
          rw [lexLe_cons_of_eq he, lexLe_cons_of_eq he.symm]
          exact ih ys

theorem lexLe_trans (a b c : List Char) (hab : lexLe a b = true)
    (hbc : lexLe b c = true) : lexLe a c = true := by
  induction a generalizing b c with
  | nil => rfl
  | cons x xs ih =>
    cases b with
    | nil => exact absurd hab (by simp [lexLe])
    | cons y ys =>
      cases c with
      | nil => exact absurd hbc (by simp [lexLe])
      | cons z zs =>
        have hxy := le_of_lexLe_cons hab
        have hyz := le_of_lexLe_cons hbc
        by_cases hxz : x.toNat < z.toNat
        · rw [lexLe_cons, if_pos hxz]
        · have hxez : x.toNat = z.toNat := by omega
          rw [lexLe_cons_of_eq (show x.toNat = y.toNat by omega)] at hab
          rw [lexLe_cons_of_eq (show y.toNat = z.toNat by omega)] at hbc
          rw [lexLe_cons_of_eq hxez]
          exact ih ys zs hab hbc

theorem lexLe_antisymm (a b : List Char) (hab : lexLe a b = true)
    (hba : lexLe b a = true) : a = b := by
  induction a generalizing b with
  | nil =>
    cases b with
    | nil => rfl
    | cons y ys => exact absurd hba (by simp [lexLe])
  | cons x xs ih =>
    cases b with
    | nil => exact absurd hab (by simp [lexLe])
    | cons y ys =>
      have hxy := le_of_lexLe_cons hab
      have hyx := le_of_lexLe_cons hba
      have he : x.toNat = y.toNat := Nat.le_antisymm hxy hyx
      have hc : x = y := Char.ext (UInt32.ext he)
      rw [lexLe_cons_of_eq he] at hab
      rw [lexLe_cons_of_eq he.symm] at hba
      rw [hc, ih ys hab hba]

instance : IsTotal String strLeRel :=
  ⟨fun s t => lexLe_total s.data t.data⟩

instance : IsTrans String strLeRel :=
  ⟨fun s t u => lexLe_trans s.data t.data u.data⟩

instance : IsAntisymm String strLeRel :=
  ⟨fun s t hab hba => String.ext (lexLe_antisymm s.data t.data hab hba)⟩

/-- Python `sorted` / `list.sort()` on a list of strings. -/
def pySort (l : List String) : List String :=
  List.insertionSort strLeRel l

theorem pySort_perm (l : List String) : (pySort l).Perm l :=
  List.perm_insertionSort strLeRel l

/-- Sorting is invariant under permutation of the input, because the
result is the unique `strLeRel`-sorted rearrangement. -/
theorem pySort_congr {l₁ l₂ : List String} (h : l₁.Perm l₂) :
    pySort l₁ = pySort l₂ :=
  List.eq_of_perm_of_sorted
    ((pySort_perm l₁).trans (h.trans (pySort_perm l₂).symm))
    (List.sorted_insertionSort strLeRel l₁)
    (List.sorted_insertionSort strLeRel l₂)

/-! ### `FileValidator.compute_sequence_hash` (src/src/utils/helpers.py:128-141)

SHA-256 is an external primitive: the model is parametric in the digest
function `sha256 : String → String`.  Everything else is transcribed:
per record take `str(rec.seq).upper().replace("N", "")`, hash it when
non-empty, sort the digests, join with `"|"` and hash the result. -/

structure FastaRecord where
  description : String
  seq : String
deriving DecidableEq

/-- `str(rec.seq).upper().replace("N", "")`: uppercase every character,
then delete every (now upper-case) `N`. -/
def canonSeq (s : String) : String :=
  ⟨(s.data.map Char.toUpper).filter (fun c => c ≠ 'N')⟩

def compute_sequence_hash (sha256 : String → String)
    (records : List FastaRecord) : Option String :=
  let hashes := records.filterMap (fun rec =>
    let seq := canonSeq rec.seq
    if seq.isEmpty then none else some (sha256 seq))
  if hashes.isEmpty then none
  else some (sha256 (String.intercalate "|" (pySort hashes)))

/-- The digest list seen through the canonical per-record sequences. -/
theorem hashes_eq_map (sha256 : String → String) (records : List FastaRecord) :
    records.filterMap (fun rec =>
        let seq := canonSeq rec.seq
        if seq.isEmpty then none else some (sha256 seq))
      = (records.map (fun rec => canonSeq rec.seq)).filterMap
          (fun s => if s.isEmpty then none else some (sha256 s)) := by
  rw [List.filterMap_map]
  rfl

theorem compute_sequence_hash_congr (sha256 : String → String)
    (rs rs' : List FastaRecord)
    (h : (rs.map (fun rec => canonSeq rec.seq)).Perm
         (rs'.map (fun rec => canonSeq rec.seq))) :
    compute_sequence_hash sha256 rs = compute_sequence_hash sha256 rs' := by
  simp only [compute_sequence_hash, hashes_eq_map]
  have hp := h.filterMap (fun s => if s.isEmpty then none else some (sha256 s))
  rw [pySort_congr hp]
  cases hn : (rs.map (fun rec => canonSeq rec.seq)).filterMap
      (fun s => if s.isEmpty then none else some (sha256 s)) with
  | nil =>
    rw [hn] at hp
    simp [List.Perm.nil_eq hp, hn]
  | cons a l =>
    rw [hn] at hp
    have hR : (rs'.map (fun rec => canonSeq rec.seq)).filterMap
        (fun s => if s.isEmpty then none else some (sha256 s)) ≠ [] := by
      intro hcontra
      rw [hcontra] at hp
      exact absurd hp.symm (by simp)
    cases hm : (rs'.map (fun rec => canonSeq rec.seq)).filterMap
        (fun s => if s.isEmpty then none else some (sha256 s)) with
    | nil => exact absurd hm hR
    | cons b m => rfl

/-- Inserting an ambiguous base (`N` or `n`) anywhere in a record's
sequence does not change the canonical sequence. -/
theorem canonSeq_insertN (s t : String) (c : Char) (h : c = 'N' ∨ c = 'n') :
    canonSeq (s ++ String.mk [c] ++ t) = canonSeq (s ++ t) := by
  have hup : c.toUpper = 'N' := by rcases h with h | h <;> subst h <;> decide
  apply String.ext
  show ((s ++ String.mk [c] ++ t).data.map Char.toUpper).filter (fun x => x ≠ 'N')
     = ((s ++ t).data.map Char.toUpper).filter (fun x => x ≠ 'N')
  simp [String.data_append, List.filter_append, hup]

/-- The hash is `none` exactly when no record has a usable sequence,
i.e. every record's canonical sequence is empty. -/
theorem compute_sequence_hash_none_iff (sha256 : String → String)
    (rs : List FastaRecord) :
    compute_sequence_hash sha256 rs = none ↔ ∀ rec ∈ rs, canonSeq rec.seq = "" := by
  simp only [compute_sequence_hash, hashes_eq_map]
  constructor
  · intro hnone rec hmem
    by_contra hne
    have hF : (if (canonSeq rec.seq).isEmpty then none
        else some (sha256 (canonSeq rec.seq))) ≠ none := by
      have : (canonSeq rec.seq).isEmpty = false := by
        cases he : (canonSeq rec.seq).isEmpty
        · rfl
        · exact absurd ((String.isEmpty_iff _).mp he) hne
      simp [this]
    have hmem' : canonSeq rec.seq ∈ rs.map (fun r => canonSeq r.seq) :=
      List.mem_map_of_mem _ hmem
    by_cases hE : ((rs.map (fun r => canonSeq r.seq)).filterMap
        (fun s => if s.isEmpty then none else some (sha256 s))).isEmpty
    · rw [List.isEmpty_eq_true, List.filterMap_eq_nil_iff] at hE
      exact hF (hE _ hmem')
    · rw [if_neg hE] at hnone
      exact Option.some_ne_none _ hnone
  · intro hall
    have hE : (rs.map (fun r => canonSeq r.seq)).filterMap
        (fun s => if s.isEmpty then none else some (sha256 s)) = [] := by
      rw [List.filterMap_eq_nil_iff]
      intro a ha
      rcases List.mem_map.mp ha with ⟨rec, hmem, hrec⟩
      rw [← hrec, hall rec hmem]
      rfl
    rw [hE]
    rfl

/-! ### `Database.insert_entry` (src/src/utils/database.py:124-158)

The `entries` table is a list of rows.  The two unique indexes are
`uq_entries_sequence_hash` (ignoring SQL NULLs, as Postgres does) and
`uq_entries_source_accession`.  `INSERT ... ON CONFLICT DO NOTHING
RETURNING id` returns a row exactly when neither index is violated. -/

structure Entry where
  source : String
  accession : String
  s3_genome_path : String
  s3_protein_path : String
  sequence_hash : Option String
  total_bp : Nat
  species : Option String
  kingdom : Option String
  origin : Option String
  status : String
deriving DecidableEq

structure InsertArgs where
  source : String
  accession : String
  s3_genome_path : String
  s3_protein_path : String
  sequence_hash : Option String
  total_bp : Nat
  species : Option String
  kingdom : Option String
  origin : Option String
deriving DecidableEq

/-- `SELECT 1 FROM entries WHERE sequence_hash=%s LIMIT 1` finds a row
(the unique index only constrains non-null hashes). -/
def hashConflict (entries : List Entry) (h : Option String) : Bool :=
  match h with
  | none => false
  | some hv => entries.any (fun e => e.sequence_hash == some hv)

/-- `SELECT 1 FROM entries WHERE source=%s AND accession=%s LIMIT 1`. -/
def accessionConflict (entries : List Entry) (source accession : String) : Bool :=
  entries.any (fun e => e.source == source && e.accession == accession)

/-- The row built by the INSERT statement: every column from the
arguments, and the fixed literal `'uploaded'` for `status`. -/
def entryOfArgs (a : InsertArgs) : Entry :=
  { source := a.source
    accession := a.accession
    s3_genome_path := a.s3_genome_path
    s3_protein_path := a.s3_protein_path
    sequence_hash := a.sequence_hash
    total_bp := a.total_bp
    species := a.species
    kingdom := a.kingdom
    origin := a.origin
    status := "uploaded" }

/-- `Database.insert_entry`: the guarded insert followed, on conflict, by
the two existence probes (`sequence_hash` first, then
`(source, accession)`, falling back to `"conflict"`). -/
def insert_entry (entries : List Entry) (a : InsertArgs) :
    List Entry × Bool × Option String :=
  if hashConflict entries a.sequence_hash
      || accessionConflict entries a.source a.accession then
    let reason :=
      if hashConflict entries a.sequence_hash then "hash_conflict"
      else if accessionConflict entries a.source a.accession then "accession_conflict"
      else "conflict"
    (entries, false, some reason)
  else
    (entries ++ [entryOfArgs a], true, none)

/-! ### Effect trace of the per-item pipeline -/

inductive Event
  | uploadGenome
  | deleteGenomeFile
  | uploadProteins
  | deleteProteinFile
  | insertCatalog
  | recordFilterStat
  | addHash
  | predict
deriving DecidableEq

/-- The externally decided outcomes inside `_load_and_cleanup`:
upload results (S3 URI or failure) and whether the local files still
exist when the post-upload unlink runs. -/
structure LoadEnv where
  genomeUploadResult : Option String
  proteinUploadResult : Option String
  genomeFilePresent : Bool
  proteinFilePresent : Bool
deriving DecidableEq

structure LoadArgs where
  source : String
  accession : String
  seq_hash : Option String
  species : Option String
  kingdom : Option String
  origin : Option String
  total_bp : Nat
deriving DecidableEq

/-- `ETLPipeline._load_and_cleanup` (src/run_etl.py:317-379): upload the
genome, delete the local copy, upload the proteins, delete the local
copy, insert the catalog row; each failure returns `False` at once. -/
def load_and_cleanup (env : LoadEnv) (entries : List Entry) (a : LoadArgs) :
    Bool × List Entry × List Event :=
  match env.genomeUploadResult with
  | none => (false, entries, [Event.uploadGenome])
  | some genome_s3 =>
    let ev1 := Event.uploadGenome ::
      (if env.genomeFilePresent then [Event.deleteGenomeFile] else [])
    match env.proteinUploadResult with
    | none => (false, entries, ev1 ++ [Event.uploadProteins])
    | some protein_s3 =>
      let ev2 := ev1 ++ Event.uploadProteins ::
        (if env.proteinFilePresent then [Event.deleteProteinFile] else [])
      let res := insert_entry entries
        { source := a.source
          accession := a.accession
          s3_genome_path := genome_s3
          s3_protein_path := protein_s3
          sequence_hash := a.seq_hash
          total_bp := a.total_bp
          species := a.species
          kingdom := a.kingdom
          origin := a.origin }
      (res.2.1, res.1, ev2 ++ [Event.insertCatalog])

/-- The upload/insert milestones of a trace, in order of occurrence. -/
def mainEvents (evs : List Event) : List Event :=
  evs.filter (fun e =>
    e == Event.uploadGenome || e == Event.uploadProteins || e == Event.insertCatalog)

/-! ### `ETLPipeline._process_source` batch loop (src/run_etl.py:99-155)

One iteration of the `while total_processed < limit` loop, given the
outcome of this batch's disk check and download.  `exhaustedReport` is
`some flags` when the extractor has a `search_exhausted` attribute
(`flags` its values; none of the shipped extractors defines one). -/

structure BatchInput where
  diskOk : Bool
  exhaustedReport : Option (List Bool)
  files : Nat
  succeeded : Nat
deriving DecidableEq

structure LoopState where
  totalProcessed : Nat
  batchNum : Nat
  consecutiveEmpty : Nat
deriving DecidableEq

inductive StepOutcome
  | next (s : LoopState)
  | stopLowDisk
  | stopExhausted
  | stopEmptyBatches
deriving DecidableEq

/-- The empty-batch tail of the loop body: bump `consecutive_empty`,
stop at `max_empty = 5`, otherwise `continue` at the next offset. -/
def emptyBatchStep (s : LoopState) : StepOutcome :=
  let consecutive_empty := s.consecutiveEmpty + 1
  let max_empty := 5
  if max_empty ≤ consecutive_empty then StepOutcome.stopEmptyBatches
  else StepOutcome.next { s with consecutiveEmpty := consecutive_empty }

def process_source_step (limit batch_size : Nat) (s : LoopState) (b : BatchInput) :
    StepOutcome :=
  let s1 : LoopState := { s with batchNum := s.batchNum + 1 }
  let _current_batch := min batch_size (limit - s1.totalProcessed)
  if !b.diskOk then StepOutcome.stopLowDisk
  else if b.files = 0 then
    match b.exhaustedReport with
    | some flags =>
      if flags.all (fun x => x) then StepOutcome.stopExhausted
      else emptyBatchStep s1
    | none => emptyBatchStep s1
  else
    StepOutcome.next
      { totalProcessed := s1.totalProcessed + b.succeeded
        batchNum := s1.batchNum
        consecutiveEmpty := 0 }

/-! ### `ProdigalRunner.process_metagenome` (src/src/utils/helpers.py:332-513)

The external effects after the pre-filter (seqkit splitting, the
per-split prodigal runs, the merge and the final gzip) are oracle
inputs; the function returns the call's result together with how many
times the external gene predictor was invoked. -/

structure SplitInfo where
  seqs : Nat
  bp : Nat
deriving DecidableEq

structure MetaEnv where
  splitFiles : List SplitInfo
  splitPredict : Nat → Bool
  directPredictOk : Bool
  mergedNonEmpty : Bool
  gzOk : Bool

def process_metagenome (env : MetaEnv) (lengths : List Nat) : Option Unit × Nat :=
  let MIN_CONTIG_LENGTH := 200
  let kept := lengths.filter (fun l => MIN_CONTIG_LENGTH ≤ l)
  let kept_seqs := kept.length
  let kept_bp := kept.sum
  if kept_seqs < 10 then (none, 0)
  else if kept_bp < 50000 then (none, 0)
  else if kept_seqs < 1000 || kept_bp < 500000 then
    (if env.directPredictOk then some () else none, 1)
  else
    let split_files := env.splitFiles
    if split_files.isEmpty then (none, 0)
    else if split_files.any (fun sp => sp.seqs < 10 || sp.bp < 10000) then (none, 0)
    else if (List.range split_files.length).all env.splitPredict then
      ((if env.mergedNonEmpty then (if env.gzOk then some () else none) else none),
       split_files.length)
    else (none, split_files.length)

/-! ### `FileValidator.validate_and_fix` (src/src/utils/helpers.py:27-47)

`present`/`size` describe the input path, `siblingPresent`/`decompOk`
the gzip sibling, and `parseCount` the `SeqIO.parse` count over the
usable file (`none` models a raised exception). -/

structure VFile where
  present : Bool
  size : Nat
  isGz : Bool
  siblingPresent : Bool
  decompOk : Bool
  parseCount : Option Nat
deriving DecidableEq

inductive VPath
  | original
  | sibling
deriving DecidableEq

def validate_and_fix (f : VFile) : Option VPath :=
  if !f.present || f.size < 100 then none
  else if f.isGz && !f.siblingPresent && !f.decompOk then none
  else
    let target := if f.isGz then VPath.sibling else VPath.original
    match f.parseCount with
    | some cnt => if 0 < cnt then some target else none
    | none => none

/-- Claim-side reading of "at least one valid FASTA record parses": the
usable (decompressed when gzipped) file can be produced and yields a
positive record count. -/
def usableParses (f : VFile) : Prop :=
  (f.isGz = true → f.siblingPresent = true ∨ f.decompOk = true) ∧
  ∃ n, f.parseCount = some n ∧ 0 < n

/-! ### `ETLPipeline._filter_metagenome` (src/run_etl.py:287-315)

Records are their sequence lengths.  The stats dict is kept as the
key/value list the Python code builds, so that the caller's
`if filter_stats:` truthiness test is represented faithfully. -/

inductive FilterPath
  | original
  | filtered (kept : List Nat)
deriving DecidableEq

def filter_metagenome (min_length : Nat) (recs : List Nat) :
    FilterPath × List (String × Nat) :=
  let acc := recs.foldl
    (fun (st : Nat × Nat × List Nat) l =>
      if min_length < l then (st.1 + 1, st.2.1 + 1, st.2.2 ++ [l])
      else (st.1 + 1, st.2.1, st.2.2))
    (0, 0, [])
  let total_contigs := acc.1
  let kept_contigs := acc.2.1
  let kept_records := acc.2.2
  let removed_contigs := total_contigs - kept_contigs
  let stats := [("total", total_contigs), ("kept", kept_contigs),
                ("removed", removed_contigs)]
  if kept_records.isEmpty then (FilterPath.original, stats)
  else (FilterPath.filtered kept_records, stats)

/-- The filter call plus the caller's `if filter_stats:` guard
(src/run_etl.py:230-241): the third component is whether a
`FilteringStat` row is inserted. -/
def metagenome_filter_stage (min_length : Nat) (recs : List Nat) :
    FilterPath × List (String × Nat) × Bool :=
  let r := filter_metagenome min_length recs
  (r.1, r.2, !r.2.isEmpty)

/-! ### `ETLPipeline._etl_single_file` (src/run_etl.py:176-285)

Metadata and species cleaning (steps 1a/1b) do not touch the shared
state and are abstracted into the per-item environment; the validated
file's record lengths drive the filter, `total_bp` and the metagenome
predictor. -/

structure ItemEnv where
  diskOk : Bool
  validateOk : Bool
  hashResult : Option String
  isMetagenome : Bool
  contigLengths : List Nat
  minContigLength : Nat
  metaEnv : MetaEnv
  predictOk : Bool
  loadEnv : LoadEnv
  source : String
  accession : String
  species : Option String
  kingdom : Option String
  origin : Option String

def etl_single_file (env : ItemEnv) (seen_hashes : List String)
    (entries : List Entry) : Bool × List String × List Entry × List Event :=
  if !env.diskOk then (false, seen_hashes, entries, [])
  else if !env.validateOk then (false, seen_hashes, entries, [])
  else
    match env.hashResult with
    | none => (false, seen_hashes, entries, [])
    | some seq_hash =>
      if seen_hashes.contains seq_hash then (false, seen_hashes, entries, [])
      else
        let seen2 := seq_hash :: seen_hashes
        let fr := metagenome_filter_stage env.minContigLength env.contigLengths
        let filteredLengths :=
          if env.isMetagenome then
            match fr.1 with
            | FilterPath.filtered kept => kept
            | FilterPath.original => env.contigLengths
          else env.contigLengths
        let statEvents :=
          if env.isMetagenome && fr.2.2 then [Event.recordFilterStat] else []
        let total_bp := filteredLengths.sum
        let predictSuccess :=
          if env.isMetagenome then
            (process_metagenome env.metaEnv filteredLengths).1.isSome
          else env.predictOk
        let ev0 := Event.addHash :: statEvents ++ [Event.predict]
        if !predictSuccess then (false, seen2, entries, ev0)
        else
          let lr := load_and_cleanup env.loadEnv entries
            { source := env.source
              accession := env.accession
              seq_hash := some seq_hash
              species := env.species
              kingdom := env.kingdom
              origin := env.origin
              total_bp := total_bp }
          (lr.1, seen2, lr.2.1, ev0 ++ lr.2.2)

/-! ### Helper lemmas -/

/-- `exhaustedAll` reads the loop's `hasattr` guard plus
`all(extractor.search_exhausted.values())` as one Boolean. -/
def exhaustedAll (b : BatchInput) : Bool :=
  match b.exhaustedReport with
  | some flags => flags.all (fun x => x)
  | none => false

theorem filter_fold_spec (min_length : Nat) (recs : List Nat)
    (t k : Nat) (ks : List Nat) :
    recs.foldl
      (fun (st : Nat × Nat × List Nat) l =>
        if min_length < l then (st.1 + 1, st.2.1 + 1, st.2.2 ++ [l])
        else (st.1 + 1, st.2.1, st.2.2))
      (t, k, ks)
    = (t + recs.length, k + recs.countP (fun l => min_length < l),
       ks ++ recs.filter (fun l => min_length < l)) := by
  induction recs generalizing t k ks with
  | nil => simp
  | cons x xs ih =>
    by_cases h : min_length < x
    · simp only [List.foldl_cons, if_pos h, ih, List.countP_cons, List.filter_cons,
        List.length_cons, decide_eq_true_eq, if_pos h, Prod.mk.injEq]
      refine ⟨by omega, by omega, by simp⟩
    · simp only [List.foldl_cons, if_neg h, ih, List.countP_cons, List.filter_cons,
        List.length_cons, decide_eq_true_eq, if_neg h, Prod.mk.injEq]
      refine ⟨by omega, by simp, by simp⟩

theorem filter_metagenome_eq (min_length : Nat) (recs : List Nat) :
    filter_metagenome min_length recs
      = (if (recs.filter (fun l => min_length < l)).isEmpty then FilterPath.original
         else FilterPath.filtered (recs.filter (fun l => min_length < l)),
         [("total", recs.length),
          ("kept", recs.countP (fun l => min_length < l)),
          ("removed", recs.length - recs.countP (fun l => min_length < l))]) := by
  unfold filter_metagenome
  rw [filter_fold_spec]
  simp only [Nat.zero_add, List.nil_append]
  split <;> rfl

theorem addHash_not_in_load (env : LoadEnv) (entries : List Entry) (a : LoadArgs) :
    Event.addHash ∉ (load_and_cleanup env entries a).2.2 := by
  unfold load_and_cleanup
  rcases env with ⟨g, p, gf, pf⟩
  cases g <;> cases p <;> cases gf <;> cases pf <;> simp

/-- The stats dict built by `_filter_metagenome` always has its three
keys, so the caller's `if filter_stats:` truthiness test always passes. -/
theorem metagenome_stats_recorded (min_length : Nat) (recs : List Nat) :
    (metagenome_filter_stage min_length recs).2.2 = true := by
  unfold metagenome_filter_stage
  rw [filter_metagenome_eq]
  simp

/-! ### Claim theorems -/

/-- C1: `insert_entry` returns `(true, null)` on success; on a
uniqueness conflict it returns `(false, reason)` without raising, the
reason decided by a follow-up existence probe on the `sequence_hash`
unique index first (`hash_conflict`), then the `(source, accession)`
unique index (`accession_conflict`), with fallback `conflict` when
neither probe finds a row. -/
theorem insert_entry_conflict_spec (entries : List Entry) (a : InsertArgs) :
    ((insert_entry entries a).2.1 = true → (insert_entry entries a).2.2 = none)
    ∧ ((insert_entry entries a).2.1 = false →
        (insert_entry entries a).2.2
          = some (if hashConflict entries a.sequence_hash then "hash_conflict"
                  else if accessionConflict entries a.source a.accession then "accession_conflict"
                  else "conflict"))
    ∧ ((insert_entry entries a).2.1 = false
        ↔ (hashConflict entries a.sequence_hash = true
           ∨ accessionConflict entries a.source a.accession = true)) := by
  unfold insert_entry
  by_cases hh : hashConflict entries a.sequence_hash
  · simp [hh]
  · by_cases ha : accessionConflict entries a.source a.accession
    · simp [hh, ha]
    · simp [hh, ha]

theorem insert_entry_conflict_spec_witness :
    (insert_entry [entryOfArgs ⟨"ncbi", "A1", "g", "p", some "h1", 5, none, none, none⟩]
       ⟨"ena", "B2", "g", "p", some "h1", 5, none, none, none⟩).2.2
      = some "hash_conflict" :=
  ((insert_entry_conflict_spec
      [entryOfArgs ⟨"ncbi", "A1", "g", "p", some "h1", 5, none, none, none⟩]
      ⟨"ena", "B2", "g", "p", some "h1", 5, none, none, none⟩).2.1
    (by decide)).trans (by decide)

/-- C9: every row `insert_entry` successfully inserts carries the fixed
status literal `'uploaded'`, independent of the arguments, and the
all-rows-uploaded invariant is preserved. -/
theorem insert_entry_status_uploaded (entries : List Entry) (a : InsertArgs) :
    ((insert_entry entries a).2.1 = true →
      (insert_entry entries a).1 = entries ++ [entryOfArgs a])
    ∧ (entryOfArgs a).status = "uploaded"
    ∧ ((∀ e ∈ entries, e.status = "uploaded") →
        ∀ e ∈ (insert_entry entries a).1, e.status = "uploaded") := by
  unfold insert_entry
  by_cases hh : hashConflict entries a.sequence_hash
  · refine ⟨by simp [hh], rfl, ?_⟩
    simp only [hh, Bool.true_or, if_pos]
    exact fun hall => hall
  · by_cases ha : accessionConflict entries a.source a.accession
    · refine ⟨by simp [hh, ha], rfl, ?_⟩
      simp only [hh, ha, Bool.or_true, if_pos]
      exact fun hall => hall
    · refine ⟨by simp [hh, ha], rfl, ?_⟩
      simp only [hh, ha, Bool.or_self, if_neg, Bool.false_eq_true, not_false_iff]
      intro hall e he
      rcases List.mem_append.mp he with he | he
      · exact hall e he
      · rcases List.mem_singleton.mp he with rfl
        rfl

theorem insert_entry_status_uploaded_witness :
    (insert_entry [] ⟨"ncbi", "A1", "g", "p", some "h1", 5, none, none, none⟩).1
      = [entryOfArgs ⟨"ncbi", "A1", "g", "p", some "h1", 5, none, none, none⟩] :=
  (insert_entry_status_uploaded [] ⟨"ncbi", "A1", "g", "p", some "h1", 5, none, none, none⟩).1
    (by decide)

/-- C4: the sequence hash is computed per record from the uppercased,
`N`-stripped sequence (SHA-256 per non-empty record, digests sorted
lexically, joined with `|`, hashed again); it is invariant under any
permutation of the records and under insertion or removal of `N`/`n`
bases, and is `none` exactly when no record has a usable sequence. -/
theorem compute_sequence_hash_spec (sha256 : String → String)
    (rs rs' : List FastaRecord)
    (hperm : (rs.map (fun rec => canonSeq rec.seq)).Perm
             (rs'.map (fun rec => canonSeq rec.seq))) :
    compute_sequence_hash sha256 rs = compute_sequence_hash sha256 rs'
    ∧ (∀ rs₂, rs.Perm rs₂ →
        compute_sequence_hash sha256 rs = compute_sequence_hash sha256 rs₂)
    ∧ (compute_sequence_hash sha256 rs = none ↔ ∀ rec ∈ rs, canonSeq rec.seq = "")
    ∧ (∀ (s t : String) (c : Char), (c = 'N' ∨ c = 'n') →
        canonSeq (s ++ String.mk [c] ++ t) = canonSeq (s ++ t)) :=
  ⟨compute_sequence_hash_congr sha256 rs rs' hperm,
   fun rs₂ hp => compute_sequence_hash_congr sha256 rs rs₂
     (hp.map (fun rec => canonSeq rec.seq)),
   compute_sequence_hash_none_iff sha256 rs,
   canonSeq_insertN⟩

theorem compute_sequence_hash_spec_witness :
    compute_sequence_hash (fun s => s) [⟨"a", "anC"⟩, ⟨"b", "G"⟩]
      = compute_sequence_hash (fun s => s) [⟨"b", "G"⟩, ⟨"a", "NAC"⟩] :=
  (compute_sequence_hash_spec (fun s => s)
    [⟨"a", "anC"⟩, ⟨"b", "G"⟩] [⟨"b", "G"⟩, ⟨"a", "NAC"⟩] (by decide)).1

/-- C2: in `_load_and_cleanup` the genome upload, the protein upload and
the catalog insert happen strictly in that order; a genome-upload
failure prevents both later steps; a protein-upload failure after a
successful genome upload prevents the catalog insert (the genome object
stays orphaned) and the call returns non-success. -/
theorem load_and_cleanup_order_spec (env : LoadEnv) (entries : List Entry)
    (a : LoadArgs) :
    (mainEvents (load_and_cleanup env entries a).2.2 = [Event.uploadGenome]
     ∨ mainEvents (load_and_cleanup env entries a).2.2
        = [Event.uploadGenome, Event.uploadProteins]
     ∨ mainEvents (load_and_cleanup env entries a).2.2
        = [Event.uploadGenome, Event.uploadProteins, Event.insertCatalog])
    ∧ (env.genomeUploadResult = none →
        (load_and_cleanup env entries a).1 = false
        ∧ Event.uploadProteins ∉ (load_and_cleanup env entries a).2.2
        ∧ Event.insertCatalog ∉ (load_and_cleanup env entries a).2.2
        ∧ (load_and_cleanup env entries a).2.1 = entries)
    ∧ (env.genomeUploadResult ≠ none → env.proteinUploadResult = none →
        (load_and_cleanup env entries a).1 = false
        ∧ Event.insertCatalog ∉ (load_and_cleanup env entries a).2.2
        ∧ (load_and_cleanup env entries a).2.1 = entries) := by
  unfold load_and_cleanup mainEvents
  rcases env with ⟨g, p, gf, pf⟩
  cases g <;> cases p <;> cases gf <;> cases pf <;> simp

theorem load_and_cleanup_order_spec_witness :
    (load_and_cleanup ⟨some "s3g", none, true, false⟩ []
        ⟨"s", "a", some "h", none, none, none, 7⟩).1 = false
    ∧ Event.insertCatalog ∉ (load_and_cleanup ⟨some "s3g", none, true, false⟩ []
        ⟨"s", "a", some "h", none, none, none, 7⟩).2.2 :=
  have h := (load_and_cleanup_order_spec ⟨some "s3g", none, true, false⟩ []
    ⟨"s", "a", some "h", none, none, none, 7⟩).2.2 (by decide) rfl
  ⟨h.1, h.2.1⟩

/-- C3: for a zero-file batch the loop first consults the extractor's
exhausted report and stops at once when all search sources are
exhausted; otherwise it bumps a consecutive-empty counter, abandoning
the source only when the bumped counter reaches five; any non-empty
batch (including a batch smaller than requested) resets the counter to
zero and never terminates the source. -/
theorem process_source_step_spec (limit batch_size : Nat) (s : LoopState)
    (b : BatchInput) (hdisk : b.diskOk = true) :
    (b.files = 0 → exhaustedAll b = true →
      process_source_step limit batch_size s b = StepOutcome.stopExhausted)
    ∧ (b.files = 0 → exhaustedAll b = false →
        (5 ≤ s.consecutiveEmpty + 1 →
          process_source_step limit batch_size s b = StepOutcome.stopEmptyBatches)
        ∧ (s.consecutiveEmpty + 1 < 5 →
          process_source_step limit batch_size s b
            = StepOutcome.next
                ⟨s.totalProcessed, s.batchNum + 1, s.consecutiveEmpty + 1⟩))
    ∧ (0 < b.files →
        process_source_step limit batch_size s b
          = StepOutcome.next ⟨s.totalProcessed + b.succeeded, s.batchNum + 1, 0⟩)
    ∧ (0 < b.files → b.files < min batch_size (limit - s.totalProcessed) →
        ∃ s2, process_source_step limit batch_size s b = StepOutcome.next s2) := by
  rcases b with ⟨dsk, rep, files, succ⟩
  have hd : dsk = true := hdisk
  subst hd
  unfold process_source_step exhaustedAll emptyBatchStep
  dsimp only
  refine ⟨?_, ?_, ?_, ?_⟩
  · intro hf hex
    subst hf
    rcases rep with _ | flags
    · exact absurd hex (by simp)
    · have hex' : flags.all (fun x => x) = true := hex
      simp [hex']
  · intro hf hex
    subst hf
    rcases rep with _ | flags
    · constructor
      · intro h5
        simp [show 4 ≤ s.consecutiveEmpty from by omega]
      · intro h5
        simp [show ¬ 4 ≤ s.consecutiveEmpty from by omega]
    · have hex' : flags.all (fun x => x) = false := hex
      constructor
      · intro h5
        simp [hex', show 4 ≤ s.consecutiveEmpty from by omega]
      · intro h5
        simp [hex', show ¬ 4 ≤ s.consecutiveEmpty from by omega]
  · intro hf
    have hne : files ≠ 0 := Nat.pos_iff_ne_zero.mp hf
    rcases rep with _ | flags <;> simp [hne]
  · intro hf _
    have hne : files ≠ 0 := Nat.pos_iff_ne_zero.mp hf
    rcases rep with _ | flags <;>
      exact ⟨⟨s.totalProcessed + succ, s.batchNum + 1, 0⟩, by simp [hne]⟩

theorem process_source_step_spec_witness :
    process_source_step 100 10 ⟨0, 0, 3⟩ ⟨true, none, 0, 0⟩
      = StepOutcome.next ⟨0, 1, 4⟩ :=
  (((process_source_step_spec 100 10 ⟨0, 0, 3⟩ ⟨true, none, 0, 0⟩ rfl).2.1
    rfl (by decide)).2 (by decide))

/-- C5: after the 200 bp pre-filter, a metagenome keeping fewer than 10
sequences or fewer than 50,000 bases makes `process_metagenome` return
failure with zero invocations of the external gene predictor. -/
theorem process_metagenome_prefilter_spec (env : MetaEnv) (lengths : List Nat)
    (h : (lengths.filter (fun l => 200 ≤ l)).length < 10
       ∨ (lengths.filter (fun l => 200 ≤ l)).sum < 50000) :
    process_metagenome env lengths = (none, 0) := by
  unfold process_metagenome
  rcases h with h | h
  · simp [h]
  · by_cases h1 : (lengths.filter (fun l => 200 ≤ l)).length < 10
    · simp [h1]
    · simp [h1, h]

theorem process_metagenome_prefilter_spec_witness :
    process_metagenome ⟨[], fun _ => true, true, true, true⟩
      (List.replicate 12 300) = (none, 0) :=
  process_metagenome_prefilter_spec ⟨[], fun _ => true, true, true, true⟩
    (List.replicate 12 300) (by decide)

/-- C6: `validate_and_fix` returns a usable path (the decompressed
sibling for gzip inputs, the file itself otherwise) exactly when the
file exists, is at least 100 bytes, and the usable file can be produced
and parses at least one FASTA record; otherwise it returns `none`. -/
theorem validate_and_fix_spec (f : VFile) :
    ((validate_and_fix f).isSome
      ↔ (f.present = true ∧ 100 ≤ f.size ∧ usableParses f))
    ∧ (f.isGz = true →
        validate_and_fix f = none ∨ validate_and_fix f = some VPath.sibling)
    ∧ (f.isGz = false →
        validate_and_fix f = none ∨ validate_and_fix f = some VPath.original) := by
  rcases f with ⟨present, size, isGz, sib, dec, parse⟩
  unfold validate_and_fix usableParses
  rcases parse with _ | n
  · cases present <;> cases isGz <;> cases sib <;> cases dec <;>
      by_cases hsz : size < 100 <;> simp_all
  · by_cases hn : 0 < n
    · cases present <;> cases isGz <;> cases sib <;> cases dec <;>
        by_cases hsz : size < 100 <;> simp_all
    · cases present <;> cases isGz <;> cases sib <;> cases dec <;>
        by_cases hsz : size < 100 <;> simp_all

theorem validate_and_fix_spec_witness :
    (validate_and_fix ⟨true, 200, true, false, true, some 3⟩).isSome
    ∧ validate_and_fix ⟨true, 200, true, false, true, some 3⟩ = some VPath.sibling :=
  have h := validate_and_fix_spec ⟨true, 200, true, false, true, some 3⟩
  have hs : (validate_and_fix ⟨true, 200, true, false, true, some 3⟩).isSome :=
    h.1.mpr ⟨rfl, by decide, by decide, 3, rfl, by decide⟩
  ⟨hs, by
    rcases h.2.1 rfl with hnone | hsib
    · rw [hnone] at hs
      exact absurd hs (by decide)
    · exact hsib⟩

/-- C7: a metagenome whose configurable contig filter keeps zero records
continues on the original file path, with a statistics record reporting
zero kept contigs, and a `FilteringStat` row is recorded for every
filtered metagenome item (the stats dict is never empty, so the
caller's truthiness guard always fires). -/
theorem filter_metagenome_zero_kept_spec (min_length : Nat) (recs : List Nat) :
    (metagenome_filter_stage min_length recs).2.2 = true
    ∧ (recs.countP (fun l => min_length < l) = 0 →
        (metagenome_filter_stage min_length recs).1 = FilterPath.original
        ∧ (metagenome_filter_stage min_length recs).2.1.lookup "kept" = some 0) := by
  refine ⟨metagenome_stats_recorded min_length recs, ?_⟩
  intro h0
  have hE : (recs.filter (fun l => min_length < l)).isEmpty = true := by
    rw [List.isEmpty_eq_true, ← List.length_eq_zero,
      ← List.countP_eq_length_filter]
    exact h0
  unfold metagenome_filter_stage
  rw [filter_metagenome_eq]
  refine ⟨by simp [hE], ?_⟩
  rw [h0]
  rfl

theorem filter_metagenome_zero_kept_spec_witness :
    (metagenome_filter_stage 2000 [1999, 2000]).2.2 = true
    ∧ (metagenome_filter_stage 2000 [1999, 2000]).1 = FilterPath.original :=
  have h := filter_metagenome_zero_kept_spec 2000 [1999, 2000]
  ⟨h.1, (h.2 (by decide)).1⟩

/-- C10: the orchestrator's metagenome contig filter keeps exactly the
records whose length is strictly greater than `min_contig_length` (an
equal-length contig is removed), and the reported `removed` count is
always `total - kept`. -/
theorem filter_metagenome_strict_spec (min_length : Nat) (recs : List Nat) :
    (filter_metagenome min_length recs).2.lookup "total" = some recs.length
    ∧ (filter_metagenome min_length recs).2.lookup "kept"
        = some (recs.countP (fun l => min_length < l))
    ∧ (filter_metagenome min_length recs).2.lookup "removed"
        = some (recs.length - recs.countP (fun l => min_length < l))
    ∧ (∀ ks, (filter_metagenome min_length recs).1 = FilterPath.filtered ks →
        ks = recs.filter (fun l => min_length < l) ∧ ∀ l ∈ ks, min_length < l)
    ∧ recs.countP (fun l => min_length < l)
        + (recs.length - recs.countP (fun l => min_length < l)) = recs.length := by
  rw [filter_metagenome_eq]
  refine ⟨rfl, rfl, rfl, ?_, ?_⟩
  · intro ks hks
    by_cases hE : (recs.filter (fun l => min_length < l)).isEmpty
    · rw [if_pos hE] at hks
      cases hks
    · rw [if_neg hE] at hks
      cases hks
      exact ⟨rfl, fun l hl => of_decide_eq_true (List.mem_filter.mp hl).2⟩
  · have hle := List.countP_le_length (fun l => decide (min_length < l)) (l := recs)
    omega

theorem filter_metagenome_strict_spec_witness :
    (filter_metagenome 2000 [1999, 2000, 2001]).2.lookup "kept" = some 1
    ∧ [2001] = [1999, 2000, 2001].filter (fun l => 2000 < l) :=
  have h := filter_metagenome_strict_spec 2000 [1999, 2000, 2001]
  ⟨h.2.1.trans (by decide), ((h.2.2.2.1 [2001] (by decide)).1)⟩

/-- The shape of `_etl_single_file` on a fresh hash: the hash is pushed
onto the shared set first, before the filter-stat, prediction, upload
and catalog events, and it stays there whatever happens downstream. -/
theorem etl_fresh_shape (env : ItemEnv) (seen : List String)
    (entries : List Entry) (h : String) (hh : env.hashResult = some h)
    (hdisk : env.diskOk = true) (hval : env.validateOk = true)
    (hfresh : seen.contains h = false) :
    ∃ (ok : Bool) (db : List Entry) (t : List Event),
      etl_single_file env seen entries = (ok, h :: seen, db, Event.addHash :: t)
      ∧ Event.addHash ∉ t := by
  unfold etl_single_file
  rw [hh, hdisk, hval]
  dsimp only
  rw [hfresh]
  simp only [Bool.false_eq_true, if_false, Bool.not_true, Bool.not_false, if_true]
  have hrec := metagenome_stats_recorded env.minContigLength env.contigLengths
  cases hmeta : env.isMetagenome
  · simp only [Bool.false_eq_true, if_false, Bool.false_and, ite_false]
    cases hp : env.predictOk
    · simp only [Bool.not_false, if_pos, if_true]
      exact ⟨false, entries, [Event.predict], rfl, by simp⟩
    · simp only [Bool.not_true, Bool.false_eq_true, if_false]
      refine ⟨_, _, _, rfl, ?_⟩
      simp [addHash_not_in_load]
  · simp only [Bool.true_eq_false, if_true, Bool.true_and, hrec, ite_true]
    cases hp : (process_metagenome env.metaEnv
        (match (metagenome_filter_stage env.minContigLength env.contigLengths).1 with
         | FilterPath.filtered kept => kept
         | FilterPath.original => env.contigLengths)).1.isSome
    · simp only [Bool.not_false, if_true]
      exact ⟨false, entries, [Event.recordFilterStat, Event.predict], rfl, by simp⟩
    · simp only [Bool.not_true, Bool.false_eq_true, if_false]
      refine ⟨_, _, _, rfl, ?_⟩
      simp [addHash_not_in_load]

/-- C8: once a freshly computed hash is added to the in-memory set it
happens before any prediction, upload or catalog event and is never
removed, whatever the downstream outcome; a later item whose hash is
already in the set is rejected with no state change and no events. -/
theorem etl_single_file_hash_spec (env : ItemEnv) (seen : List String)
    (entries : List Entry) (h : String) (hh : env.hashResult = some h) :
    (h ∉ seen → env.diskOk = true → env.validateOk = true →
      (etl_single_file env seen entries).2.1 = h :: seen
      ∧ ∃ t, (etl_single_file env seen entries).2.2.2 = Event.addHash :: t
          ∧ Event.addHash ∉ t)
    ∧ (h ∈ seen → etl_single_file env seen entries = (false, seen, entries, [])) := by
  constructor
  · intro hfresh hdisk hval
    have hc : seen.contains h = false := by
      cases hcc : seen.contains h
      · rfl
      · exact absurd (List.elem_iff.mp hcc) hfresh
    obtain ⟨ok, db, t, heq, hnot⟩ := etl_fresh_shape env seen entries h hh hdisk hval hc
    rw [heq]
    exact ⟨rfl, t, rfl, hnot⟩
  · intro hdup
    unfold etl_single_file
    rw [hh]
    cases hdk : env.diskOk <;> cases hvl : env.validateOk <;> simp [hdup]

theorem etl_single_file_hash_spec_witness :
    (etl_single_file
      ⟨true, true, some "h", false, [10], 0, ⟨[], fun _ => true, true, true, true⟩,
        false, ⟨some "g", some "p", true, true⟩, "s", "a", none, none, none⟩
      ["x"] []).2.1 = ["h", "x"] :=
  ((etl_single_file_hash_spec
      ⟨true, true, some "h", false, [10], 0, ⟨[], fun _ => true, true, true, true⟩,
        false, ⟨some "g", some "p", true, true⟩, "s", "a", none, none, none⟩
      ["x"] [] "h" rfl).1 (by decide) rfl rfl).1

end ETL
